import Mathlib

/-!
# Verification of `contextcond` (a `sync.Cond` with `WaitContext`)

This file is a shallow embedding of the Go package `contextcond`
(`cond.go`, current version: the one using `sync.Mutex`, a lazily created
buffered wake channel of capacity 1, a non-blocking `Signal`, and a
drain-on-last-waiter step in `WaitContext`).

The embedding is a small-step transition system:

* a `ChanSt` models one Go channel of capacity 1 (`closed` flag plus the
  number of buffered tokens);
* `CondSt` models the fields of the `Cond` struct guarded by `c.mtx`
  (`ch`, `waiters`) together with a `panicked` flag recording whether any
  operation hit a Go runtime panic (close of nil channel, close of closed
  channel, send on closed channel);
* each goroutine executing `WaitContext` is a `Thread` with a program
  counter; the atomic steps are exactly the `c.mtx`-protected sections of
  the Go code plus the blocking points (`select`, `c.L.Lock()`);
* `Signal` and `Broadcast` are single atomic steps (they hold `c.mtx` for
  their whole body);
* the external lock `c.L` is `lockL : Option Nat` (the thread currently
  holding it).

Cancellation of a goroutine's context is an environment step
(`Action.cancelCtx`) that may fire at any time; the `select` in
`WaitContext` is modelled by two competing resolution steps
(`resolveWake` / `resolveCancel`), both of which may be enabled at once,
matching Go's nondeterministic `select`.

The `copyChecker` is modelled separately with abstract addresses
(`copyCheck`), since its behaviour depends only on the comparison of the
stored `uintptr` with the object's own address.
-/

namespace ContextCond

/-- State of one Go channel of capacity 1: whether it has been closed and
how many tokens are buffered in it (0 or 1 in every reachable state). -/
structure ChanSt where
  closed : Bool
  tokens : Nat
  deriving DecidableEq, Repr

/-- Program counter of one goroutine with respect to `WaitContext`.
`waiting cap` holds the index of the captured channel (`ch := c.ch`).
After the `select` resolves, the program counter carries `viaWake`
(which branch of the `select` ran) and `err` (the value of the local
variable `err`: `none` for `nil`, `some e` for `ctx.Err()`). -/
inductive PC where
  | idle : PC
  | ready : PC
  | waiting : Nat → PC
  | deregistering : Bool → Option Nat → PC
  | acquiringL : Bool → Option Nat → PC
  | done : Bool → Option Nat → PC
  deriving DecidableEq, Repr

/-- One goroutine: its program counter, whether its context has been
cancelled (`ctx.Done()` fired), and the abstract error value that
`ctx.Err()` returns once cancelled. -/
structure Thread where
  pc : PC
  cancelled : Bool
  cause : Nat
  deriving DecidableEq, Repr

/-- The `c.mtx`-guarded fields of the `Cond` struct. `chans` is the pool
of all channels ever created (a channel value is an index into it);
`ch` is the field `c.ch` (`none` models a nil channel); `waiters` is the
Go `int` field. `panicked` records whether a Go runtime panic occurred. -/
structure CondSt where
  chans : List ChanSt
  ch : Option Nat
  waiters : Int
  panicked : Bool
  deriving DecidableEq, Repr

/-- Whole system: the shared `Cond` state, the goroutines (indexed by
position), and the holder of the external lock `c.L`. -/
structure Sys where
  cond : CondSt
  threads : List Thread
  lockL : Option Nat
  deriving DecidableEq, Repr

/-- Atomic actions of the transition system. Thread-local actions carry
the goroutine index. `callWait` is the first mutex section of
`WaitContext` (lazy channel creation, capture, `waiters++`) followed by
`c.L.Unlock()`; `deregister` is the second mutex section (`waiters--`
and the drain); `reacquireL` is the final `c.L.Lock()`. -/
inductive Action where
  | acquireL : Nat → Action
  | callWait : Nat → Action
  | resolveWake : Nat → Action
  | resolveCancel : Nat → Action
  | deregister : Nat → Action
  | reacquireL : Nat → Action
  | releaseL : Nat → Action
  | cancelCtx : Nat → Action
  | signal : Action
  | broadcast : Action
  deriving DecidableEq, Repr

/-- A fresh channel as made by `make(chan struct{}, 1)`: open, empty. -/
def freshChan : ChanSt := { closed := false, tokens := 0 }

/-- `c.L.Lock()` by a goroutine that is outside `WaitContext` (the caller
must hold `c.L` before calling `Wait`/`WaitContext`). -/
def stepAcquireL (t : Nat) (s : Sys) : Option Sys :=
  match s.threads[t]? with
  | some th =>
    if th.pc = .idle ∧ s.lockL = none then
      some { s with threads := s.threads.set t { th with pc := .ready },
                    lockL := some t }
    else none
  | none => none

/-- First mutex section of `WaitContext` (lazily create `c.ch`, capture
it, `c.waiters++`) followed by `c.L.Unlock()`. -/
def stepCallWait (t : Nat) (s : Sys) : Option Sys :=
  match s.threads[t]? with
  | some th =>
    if th.pc = .ready ∧ s.lockL = some t then
      match s.cond.ch with
      | some i =>
        some { s with
          cond := { s.cond with waiters := s.cond.waiters + 1 },
          threads := s.threads.set t { th with pc := .waiting i },
          lockL := none }
      | none =>
        some { s with
          cond := { s.cond with
            chans := s.cond.chans ++ [freshChan],
            ch := some s.cond.chans.length,
            waiters := s.cond.waiters + 1 },
          threads := s.threads.set t { th with pc := .waiting s.cond.chans.length },
          lockL := none }
    else none
  | none => none

/-- The select's `case <-ch:` branch: enabled when the captured channel
has a buffered token (which is consumed) or has been closed. -/
def stepResolveWake (t : Nat) (s : Sys) : Option Sys :=
  match s.threads[t]? with
  | some th =>
    match th.pc with
    | .waiting cap =>
      match s.cond.chans[cap]? with
      | some cs =>
        if 0 < cs.tokens then
          some { s with
            cond := { s.cond with
              chans := s.cond.chans.set cap { cs with tokens := cs.tokens - 1 } },
            threads := s.threads.set t { th with pc := .deregistering true none } }
        else if cs.closed then
          some { s with
            threads := s.threads.set t { th with pc := .deregistering true none } }
        else none
      | none => none
    | _ => none
  | none => none

/-- The select's `case <-ctx.Done():` branch: `err = ctx.Err()`. -/
def stepResolveCancel (t : Nat) (s : Sys) : Option Sys :=
  match s.threads[t]? with
  | some th =>
    match th.pc with
    | .waiting _ =>
      if th.cancelled then
        some { s with
          threads := s.threads.set t { th with pc := .deregistering false (some th.cause) } }
      else none
    | _ => none
  | none => none

/-- The non-blocking drain `select { case <-c.ch: default: }` performed
when the last waiter leaves: consumes one buffered token of the current
channel if there is one (a receive from a nil channel inside a select
with a default runs the default). -/
def drainChans (c : CondSt) : List ChanSt :=
  match c.ch with
  | some i =>
    match c.chans[i]? with
    | some cs =>
      if 0 < cs.tokens then c.chans.set i { cs with tokens := cs.tokens - 1 }
      else c.chans
    | none => c.chans
  | none => c.chans

/-- Second mutex section of `WaitContext`: `c.waiters--`; if the count
hits 0, non-blocking drain of `c.ch`. -/
def stepDeregister (t : Nat) (s : Sys) : Option Sys :=
  match s.threads[t]? with
  | some th =>
    match th.pc with
    | .deregistering w e =>
      some { s with
        cond := { s.cond with
          waiters := s.cond.waiters - 1,
          chans := if s.cond.waiters - 1 = 0 then drainChans s.cond else s.cond.chans },
        threads := s.threads.set t { th with pc := .acquiringL w e } }
    | _ => none
  | none => none

/-- The final `c.L.Lock()` before `WaitContext` returns. -/
def stepReacquireL (t : Nat) (s : Sys) : Option Sys :=
  match s.threads[t]? with
  | some th =>
    match th.pc with
    | .acquiringL w e =>
      if s.lockL = none then
        some { s with threads := s.threads.set t { th with pc := .done w e },
                      lockL := some t }
      else none
    | _ => none
  | none => none

/-- The caller, after `WaitContext` returned, eventually unlocks `c.L`. -/
def stepReleaseL (t : Nat) (s : Sys) : Option Sys :=
  match s.threads[t]? with
  | some th =>
    match th.pc with
    | .done _ _ =>
      if s.lockL = some t then
        some { s with threads := s.threads.set t { th with pc := .idle },
                      lockL := none }
      else none
    | _ => none
  | none => none

/-- Environment step: the goroutine's context is cancelled. -/
def stepCancelCtx (t : Nat) (s : Sys) : Option Sys :=
  match s.threads[t]? with
  | some th => some { s with threads := s.threads.set t { th with cancelled := true } }
  | none => none

/-- `Signal`: `mtx.Lock; if waiters > 0 { select { case ch <- tok: default: } }; mtx.Unlock`.
A send on a nil channel inside a select with a default runs the default;
a send on a closed channel panics. -/
def stepSignal (s : Sys) : Option Sys :=
  if 0 < s.cond.waiters then
    match s.cond.ch with
    | none => some s
    | some i =>
      match s.cond.chans[i]? with
      | some cs =>
        if cs.closed then
          some { s with cond := { s.cond with panicked := true } }
        else if cs.tokens = 0 then
          some { s with
            cond := { s.cond with chans := s.cond.chans.set i { cs with tokens := 1 } } }
        else some s
      | none => none
  else some s

/-- `Broadcast`: `mtx.Lock; if waiters > 0 { close(ch); ch = make(chan, 1) }; mtx.Unlock`.
Closing a nil channel or an already-closed channel panics. -/
def stepBroadcast (s : Sys) : Option Sys :=
  if 0 < s.cond.waiters then
    match s.cond.ch with
    | none => some { s with cond := { s.cond with panicked := true } }
    | some i =>
      match s.cond.chans[i]? with
      | some cs =>
        if cs.closed then
          some { s with cond := { s.cond with panicked := true } }
        else
          some { s with cond := { s.cond with
            chans := (s.cond.chans.set i { cs with closed := true }) ++ [freshChan],
            ch := some s.cond.chans.length } }
      | none => none
  else some s

/-- One atomic step of the system. Returns `none` when the action is not
enabled (the goroutine does not exist, is at the wrong program point, or
is blocked). Go runtime panics are modelled by setting `panicked`. -/
def step : Action → Sys → Option Sys
  | .acquireL t => stepAcquireL t
  | .callWait t => stepCallWait t
  | .resolveWake t => stepResolveWake t
  | .resolveCancel t => stepResolveCancel t
  | .deregister t => stepDeregister t
  | .reacquireL t => stepReacquireL t
  | .releaseL t => stepReleaseL t
  | .cancelCtx t => stepCancelCtx t
  | .signal => stepSignal
  | .broadcast => stepBroadcast

/-- Run a list of actions from a state; `none` if any action is disabled. -/
def run (s : Sys) : List Action → Option Sys
  | [] => some s
  | a :: as =>
    match step a s with
    | some s' => run s' as
    | none => none

/-- The internal state of a zero-value `Cond`: all fields Go-zero
(`ch == nil`, `waiters == 0`). -/
def zeroCondSt : CondSt := { chans := [], ch := none, waiters := 0, panicked := false }

/-- The internal state produced by `NewCond(l)`, which is
`&Cond{L: l}`: every internal field is left at its zero value. -/
def newCondSt : CondSt := { chans := [], ch := none, waiters := 0, panicked := false }

/-- A goroutine that has not yet called anything; `cause` is the abstract
error its context will report if cancelled. -/
def initThread (cause : Nat) : Thread := { pc := .idle, cancelled := false, cause := cause }

/-- Initial system: a zero-value (equivalently, `NewCond`-built) `Cond`,
one idle goroutine per entry of `causes`, external lock free. -/
def initSys (causes : List Nat) : Sys :=
  { cond := zeroCondSt, threads := causes.map initThread, lockL := none }

/-- Run actions from the initial system. -/
def reach (causes : List Nat) (as : List Action) : Option Sys :=
  run (initSys causes) as

/-- A state is reachable if some interleaving of atomic steps from the
initial state produces it. -/
def Reachable (causes : List Nat) (s : Sys) : Prop :=
  ∃ as, reach causes as = some s

/-- Program points at which the goroutine is counted in `c.waiters`:
it has executed the first mutex section of `WaitContext` (the
`waiters++`) and not yet the second (the `waiters--`). -/
def registeredPC (p : PC) : Bool :=
  match p with
  | .waiting _ => true
  | .deregistering _ _ => true
  | _ => false

/-- A goroutine counted in `c.waiters`. -/
def registered (th : Thread) : Bool := registeredPC th.pc

/-- Number of goroutines currently counted in `c.waiters`. -/
def countRegistered (s : Sys) : Nat := s.threads.countP registered

/-- Program points at which the goroutine holds the external lock `c.L`:
just before calling `WaitContext` and just after it returned. -/
def holdsLockPC (p : PC) : Bool :=
  match p with
  | .ready => true
  | .done _ _ => true
  | _ => false

/-- The `select` outcome recorded in the program counter, if the
goroutine is past its `select`: `(viaWake, err)`. -/
def outcomeOf (p : PC) : Option (Bool × Option Nat) :=
  match p with
  | .deregistering w e => some (w, e)
  | .acquiringL w e => some (w, e)
  | .done w e => some (w, e)
  | _ => none

/-- Consistency of a goroutine's recorded `select` outcome with its
error value: the wake branch yields `err = nil`, the cancellation branch
yields `err = ctx.Err()` and can only run once the context is cancelled. -/
def errOK (th : Thread) : Prop :=
  ∀ w e, outcomeOf th.pc = some (w, e) →
    (w = true → e = none) ∧ (w = false → e = some th.cause ∧ th.cancelled = true)

/-- The global inductive invariant of the system. -/
structure Inv (s : Sys) : Prop where
  noPanic : s.cond.panicked = false
  waitersCount : s.cond.waiters = (countRegistered s : Int)
  chLt : ∀ i, s.cond.ch = some i → i < s.cond.chans.length
  chOpen : ∀ i cs, s.cond.ch = some i → s.cond.chans[i]? = some cs → cs.closed = false
  chNone : s.cond.ch = none → s.cond.waiters = 0
  capLt : ∀ (t : Nat) (th : Thread) (cap : Nat), s.threads[t]? = some th →
    th.pc = .waiting cap → cap < s.cond.chans.length
  capCur : ∀ (t : Nat) (th : Thread) (cap : Nat) (cs : ChanSt),
    s.threads[t]? = some th → th.pc = .waiting cap →
    s.cond.chans[cap]? = some cs → cs.closed = false → s.cond.ch = some cap
  tokensLe : ∀ (i : Nat) (cs : ChanSt), s.cond.chans[i]? = some cs → cs.tokens ≤ 1
  drained : s.cond.waiters = 0 → ∀ (i : Nat) (cs : ChanSt), s.cond.ch = some i →
    s.cond.chans[i]? = some cs → cs.tokens = 0
  lockInv : ∀ (t : Nat) (th : Thread), s.threads[t]? = some th →
    holdsLockPC th.pc = true → s.lockL = some t
  errInv : ∀ (t : Nat) (th : Thread), s.threads[t]? = some th → errOK th

/-- The Go `copyChecker.check` method with abstract addresses: `self` is
the checker's own address (`uintptr(unsafe.Pointer(c))`, never 0),
`checker` the stored value. `none` models the panic
`"contextcond.Cond is copied"`; `some v` is the stored value afterwards.
Sequentially, the CAS `CompareAndSwapUintptr((*uintptr)(c), 0, self)`
succeeds exactly when the stored value is 0. -/
def copyCheck (self checker : Nat) : Option Nat :=
  if checker ≠ self then
    if checker = 0 then some self
    else none
  else some checker

/-- Every exported operation (`Broadcast`, `Signal`, `Wait`,
`WaitContext`) first runs `c.checker.check()` and panics if it fails;
only then does it touch the condition variable state. -/
def checkedOp (self checker : Nat) (op : CondSt → CondSt) (c : CondSt) :
    Option (Nat × CondSt) :=
  match copyCheck self checker with
  | none => none
  | some v => some (v, op c)

/-! ## Generic list helpers -/

theorem getElem?_set_cases {α : Type} {l : List α} {i j : Nat} {x y : α}
    (h : (l.set i x)[j]? = some y) :
    (i = j ∧ i < l.length ∧ y = x) ∨ (i ≠ j ∧ l[j]? = some y) := by
  rw [List.getElem?_set] at h
  by_cases hij : i = j
  · rw [if_pos hij] at h
    by_cases hlt : i < l.length
    · rw [if_pos hlt] at h
      exact Or.inl ⟨hij, hlt, (Option.some.inj h).symm⟩
    · rw [if_neg hlt] at h
      exact absurd h (by simp)
  · rw [if_neg hij] at h
    exact Or.inr ⟨hij, h⟩

theorem getElem?_append_singleton_cases {α : Type} {l : List α} {x y : α} {j : Nat}
    (h : (l ++ [x])[j]? = some y) : l[j]? = some y ∨ (j = l.length ∧ y = x) := by
  rw [List.getElem?_append] at h
  by_cases hj : j < l.length
  · rw [if_pos hj] at h
    exact Or.inl h
  · rw [if_neg hj] at h
    cases hk : j - l.length with
    | zero =>
      rw [hk] at h
      refine Or.inr ⟨by omega, ?_⟩
      simpa using h.symm
    | succ n =>
      rw [hk] at h
      simp at h

theorem getElem?_append_singleton_left {α : Type} {l : List α} {x y : α} {j : Nat}
    (h : l[j]? = some y) : (l ++ [x])[j]? = some y := by
  have hj : j < l.length := by
    rcases List.getElem?_eq_some_iff.mp h with ⟨hj, _⟩
    exact hj
  rw [List.getElem?_append, if_pos hj]
  exact h

theorem countP_set_add {α : Type} (p : α → Bool) {l : List α} {i : Nat} {th : α}
    (hi : l[i]? = some th) (x : α) :
    (l.set i x).countP p + (if p th then 1 else 0) =
      l.countP p + (if p x then 1 else 0) := by
  rcases List.getElem?_eq_some_iff.mp hi with ⟨hlt, hget⟩
  have hcs := List.countP_set p l i x hlt
  have hmem : th ∈ l := hget ▸ List.getElem_mem hlt
  have hle : (if p th then 1 else 0) ≤ l.countP p := by
    by_cases hp : p th
    · rw [if_pos hp]
      exact List.countP_pos_iff.mpr ⟨th, hmem, hp⟩
    · rw [if_neg hp]; omega
  rw [hget] at hcs
  omega

theorem countP_pos_of_getElem? {α : Type} {p : α → Bool} {l : List α} {i : Nat} {x : α}
    (h : l[i]? = some x) (hp : p x = true) : 0 < l.countP p := by
  rcases List.getElem?_eq_some_iff.mp h with ⟨hlt, hget⟩
  exact List.countP_pos_iff.mpr ⟨x, hget ▸ List.getElem_mem hlt, hp⟩

/-! ## Facts about the drain performed by the last leaving waiter -/

theorem drainChans_length (c : CondSt) : (drainChans c).length = c.chans.length := by
  unfold drainChans
  split
  · split
    · split
      · exact List.length_set ..
      · rfl
    · rfl
  · rfl

theorem drainChans_getElem? {c : CondSt} {j : Nat} {cs' : ChanSt}
    (h : (drainChans c)[j]? = some cs') :
    ∃ cs, c.chans[j]? = some cs ∧ cs'.closed = cs.closed ∧ cs'.tokens ≤ cs.tokens := by
  unfold drainChans at h
  split at h
  case h_2 => exact ⟨cs', h, rfl, le_refl _⟩
  case h_1 i hi =>
    split at h
    case h_2 => exact ⟨cs', h, rfl, le_refl _⟩
    case h_1 cs hcs =>
      split at h
      case isFalse => exact ⟨cs', h, rfl, le_refl _⟩
      case isTrue htok =>
        rcases getElem?_set_cases h with ⟨rfl, hlt, rfl⟩ | ⟨hne, hold⟩
        · exact ⟨cs, hcs, rfl, Nat.sub_le _ _⟩
        · exact ⟨cs', hold, rfl, le_refl _⟩

theorem drainChans_current {c : CondSt} {i : Nat} {cs cs' : ChanSt}
    (hch : c.ch = some i) (hcs : c.chans[i]? = some cs) (hle : cs.tokens ≤ 1)
    (h : (drainChans c)[i]? = some cs') : cs'.tokens = 0 := by
  unfold drainChans at h
  rw [hch] at h
  dsimp only at h
  rw [hcs] at h
  dsimp only at h
  by_cases htok : 0 < cs.tokens
  · rw [if_pos htok] at h
    rcases getElem?_set_cases h with ⟨_, hlt, rfl⟩ | ⟨hne, _⟩
    · show cs.tokens - 1 = 0
      omega
    · exact absurd rfl hne
  · rw [if_neg htok] at h
    rw [hcs] at h
    cases Option.some.inj h
    omega

/-! ## The invariant holds initially and is preserved by every step -/

theorem inv_initSys (causes : List Nat) : Inv (initSys causes) := by
  have hth : ∀ (t : Nat) (th : Thread), (initSys causes).threads[t]? = some th →
      ∃ c, th = initThread c := by
    intro t th h
    simp only [initSys, List.getElem?_map] at h
    cases hc : causes[t]? with
    | none => rw [hc] at h; simp at h
    | some c =>
      rw [hc] at h
      simp only [Option.map] at h
      exact ⟨c, (Option.some.inj h).symm⟩
  constructor
  case noPanic => rfl
  case waitersCount =>
    have : countRegistered (initSys causes) = 0 := by
      simp only [countRegistered, initSys]
      rw [List.countP_eq_zero]
      intro a ha
      rcases List.mem_map.mp ha with ⟨c, _, hc⟩
      subst hc
      simp [registered, initThread, registeredPC]
    rw [this]; rfl
  case chLt => intro i h; simp [initSys, zeroCondSt] at h
  case chOpen => intro i cs h; simp [initSys, zeroCondSt] at h
  case chNone => intro _; rfl
  case capLt =>
    intro t th cap h hpc
    rcases hth t th h with ⟨c, hc⟩
    subst hc
    simp [initThread] at hpc
  case capCur =>
    intro t th cap cs h hpc
    rcases hth t th h with ⟨c, hc⟩
    subst hc
    simp [initThread] at hpc
  case tokensLe => intro i cs h; simp [initSys, zeroCondSt] at h
  case drained => intro _ i cs h; simp [initSys, zeroCondSt] at h
  case lockInv =>
    intro t th h hpc
    rcases hth t th h with ⟨c, hc⟩
    subst hc
    simp [initThread, holdsLockPC] at hpc
  case errInv =>
    intro t th h
    rcases hth t th h with ⟨c, hc⟩
    subst hc
    intro w e hw
    simp [initThread, outcomeOf] at hw

theorem inv_acquireL {s s' : Sys} {t : Nat} (hs : Inv s)
    (h : stepAcquireL t s = some s') : Inv s' := by
  unfold stepAcquireL at h
  split at h
  case h_2 => exact absurd h (by simp)
  case h_1 th hth =>
    split at h
    case isFalse => exact absurd h (by simp)
    case isTrue hcond =>
      obtain ⟨hpc, hlock⟩ := hcond
      cases Option.some.inj h
      constructor
      case noPanic => exact hs.noPanic
      case waitersCount =>
        have hc := countP_set_add registered hth { th with pc := .ready }
        have hw := hs.waitersCount
        simp only [countRegistered] at *
        simp only [registered, hpc, registeredPC] at hc
        omega
      case chLt => exact hs.chLt
      case chOpen => exact hs.chOpen
      case chNone => exact hs.chNone
      case capLt =>
        intro t' th' cap h' hpc'
        rcases getElem?_set_cases h' with ⟨_, _, rfl⟩ | ⟨_, hold⟩
        · simp at hpc'
        · exact hs.capLt t' th' cap hold hpc'
      case capCur =>
        intro t' th' cap cs h' hpc' hcs hopen
        rcases getElem?_set_cases h' with ⟨_, _, rfl⟩ | ⟨_, hold⟩
        · simp at hpc'
        · exact hs.capCur t' th' cap cs hold hpc' hcs hopen
      case tokensLe => exact hs.tokensLe
      case drained => exact hs.drained
      case lockInv =>
        intro t' th' h' hpc'
        rcases getElem?_set_cases h' with ⟨rfl, _, rfl⟩ | ⟨hne, hold⟩
        · rfl
        · exact absurd (hs.lockInv t' th' hold hpc') (by rw [hlock]; simp)
      case errInv =>
        intro t' th' h'
        rcases getElem?_set_cases h' with ⟨rfl, _, rfl⟩ | ⟨hne, hold⟩
        · intro w e hw
          simp [outcomeOf] at hw
        · exact hs.errInv t' th' hold

theorem inv_cancelCtx {s s' : Sys} {t : Nat} (hs : Inv s)
    (h : stepCancelCtx t s = some s') : Inv s' := by
  unfold stepCancelCtx at h
  split at h
  case h_2 => exact absurd h (by simp)
  case h_1 th hth =>
    cases Option.some.inj h
    constructor
    case noPanic => exact hs.noPanic
    case waitersCount =>
      have hc := countP_set_add registered hth { th with cancelled := true }
      have hw := hs.waitersCount
      simp only [countRegistered] at *
      simp only [registered] at hc
      omega
    case chLt => exact hs.chLt
    case chOpen => exact hs.chOpen
    case chNone => exact hs.chNone
    case capLt =>
      intro t' th' cap h' hpc'
      rcases getElem?_set_cases h' with ⟨rfl, _, rfl⟩ | ⟨_, hold⟩
      · exact hs.capLt t th cap hth hpc'
      · exact hs.capLt t' th' cap hold hpc'
    case capCur =>
      intro t' th' cap cs h' hpc' hcs hopen
      rcases getElem?_set_cases h' with ⟨rfl, _, rfl⟩ | ⟨_, hold⟩
      · exact hs.capCur t th cap cs hth hpc' hcs hopen
      · exact hs.capCur t' th' cap cs hold hpc' hcs hopen
    case tokensLe => exact hs.tokensLe
    case drained => exact hs.drained
    case lockInv =>
      intro t' th' h' hpc'
      rcases getElem?_set_cases h' with ⟨rfl, _, rfl⟩ | ⟨_, hold⟩
      · exact hs.lockInv t th hth hpc'
      · exact hs.lockInv t' th' hold hpc'
    case errInv =>
      intro t' th' h'
      rcases getElem?_set_cases h' with ⟨rfl, _, rfl⟩ | ⟨_, hold⟩
      · intro w e hw
        have := hs.errInv t th hth w e hw
        exact ⟨this.1, fun hf => ⟨(this.2 hf).1, rfl⟩⟩
      · exact hs.errInv t' th' hold

theorem inv_releaseL {s s' : Sys} {t : Nat} (hs : Inv s)
    (h : stepReleaseL t s = some s') : Inv s' := by
  unfold stepReleaseL at h
  split at h
  case h_2 => exact absurd h (by simp)
  case h_1 th hth =>
    split at h
    case h_2 => exact absurd h (by simp)
    case h_1 w e hpc =>
      split at h
      case isFalse => exact absurd h (by simp)
      case isTrue hlock =>
        cases Option.some.inj h
        constructor
        case noPanic => exact hs.noPanic
        case waitersCount =>
          have hc := countP_set_add registered hth { th with pc := .idle }
          have hw := hs.waitersCount
          simp only [countRegistered] at *
          simp [registered, hpc, registeredPC] at hc
          omega
        case chLt => exact hs.chLt
        case chOpen => exact hs.chOpen
        case chNone => exact hs.chNone
        case capLt =>
          intro t' th' cap h' hpc'
          rcases getElem?_set_cases h' with ⟨rfl, _, rfl⟩ | ⟨_, hold⟩
          · simp at hpc'
          · exact hs.capLt t' th' cap hold hpc'
        case capCur =>
          intro t' th' cap cs h' hpc' hcs hopen
          rcases getElem?_set_cases h' with ⟨rfl, _, rfl⟩ | ⟨_, hold⟩
          · simp at hpc'
          · exact hs.capCur t' th' cap cs hold hpc' hcs hopen
        case tokensLe => exact hs.tokensLe
        case drained => exact hs.drained
        case lockInv =>
          intro t' th' h' hpc'
          rcases getElem?_set_cases h' with ⟨rfl, _, rfl⟩ | ⟨hne, hold⟩
          · simp [holdsLockPC] at hpc'
          · have := hs.lockInv t' th' hold hpc'
            rw [hlock] at this
            exact absurd (Option.some.inj this) hne
        case errInv =>
          intro t' th' h'
          rcases getElem?_set_cases h' with ⟨rfl, _, rfl⟩ | ⟨_, hold⟩
          · intro w' e' hw
            simp [outcomeOf] at hw
          · exact hs.errInv t' th' hold

theorem inv_reacquireL {s s' : Sys} {t : Nat} (hs : Inv s)
    (h : stepReacquireL t s = some s') : Inv s' := by
  unfold stepReacquireL at h
  split at h
  case h_2 => exact absurd h (by simp)
  case h_1 th hth =>
    split at h
    case h_2 => exact absurd h (by simp)
    case h_1 w e hpc =>
      split at h
      case isFalse => exact absurd h (by simp)
      case isTrue hlock =>
        cases Option.some.inj h
        constructor
        case noPanic => exact hs.noPanic
        case waitersCount =>
          have hc := countP_set_add registered hth { th with pc := .done w e }
          have hw := hs.waitersCount
          simp only [countRegistered] at *
          simp [registered, hpc, registeredPC] at hc
          omega
        case chLt => exact hs.chLt
        case chOpen => exact hs.chOpen
        case chNone => exact hs.chNone
        case capLt =>
          intro t' th' cap h' hpc'
          rcases getElem?_set_cases h' with ⟨rfl, _, rfl⟩ | ⟨_, hold⟩
          · simp at hpc'
          · exact hs.capLt t' th' cap hold hpc'
        case capCur =>
          intro t' th' cap cs h' hpc' hcs hopen
          rcases getElem?_set_cases h' with ⟨rfl, _, rfl⟩ | ⟨_, hold⟩
          · simp at hpc'
          · exact hs.capCur t' th' cap cs hold hpc' hcs hopen
        case tokensLe => exact hs.tokensLe
        case drained => exact hs.drained
        case lockInv =>
          intro t' th' h' hpc'
          rcases getElem?_set_cases h' with ⟨rfl, _, rfl⟩ | ⟨hne, hold⟩
          · rfl
          · have := hs.lockInv t' th' hold hpc'
            rw [hlock] at this
            exact absurd this (by simp)
        case errInv =>
          intro t' th' h'
          rcases getElem?_set_cases h' with ⟨rfl, _, rfl⟩ | ⟨_, hold⟩
          · intro w' e' hw
            simp only [outcomeOf] at hw
            rcases Prod.mk.injEq .. ▸ Option.some.inj hw with ⟨hw1, hw2⟩
            subst hw1; subst hw2
            have := hs.errInv t th hth w e (by rw [hpc]; rfl)
            exact this
          · exact hs.errInv t' th' hold

theorem inv_callWait {s s' : Sys} {t : Nat} (hs : Inv s)
    (h : stepCallWait t s = some s') : Inv s' := by
  unfold stepCallWait at h
  split at h
  case h_2 => exact absurd h (by simp)
  case h_1 th hth =>
    split at h
    case isFalse => exact absurd h (by simp)
    case isTrue hcond =>
      obtain ⟨hpc, hlock⟩ := hcond
      have hw := hs.waitersCount
      split at h
      case h_1 i hch =>
        cases Option.some.inj h
        constructor
        case noPanic => exact hs.noPanic
        case waitersCount =>
          have hc := countP_set_add registered hth { th with pc := .waiting i }
          simp only [countRegistered] at *
          simp [registered, hpc, registeredPC] at hc
          omega
        case chLt => exact hs.chLt
        case chOpen => exact hs.chOpen
        case chNone =>
          intro hn
          simp only at hn
          rw [hch] at hn
          exact absurd hn (by simp)
        case capLt =>
          intro t' th' cap h' hpc'
          rcases getElem?_set_cases h' with ⟨rfl, _, rfl⟩ | ⟨_, hold⟩
          · simp only [PC.waiting.injEq] at hpc'
            subst hpc'
            exact hs.chLt _ hch
          · exact hs.capLt t' th' cap hold hpc'
        case capCur =>
          intro t' th' cap cs h' hpc' hcs hopen
          rcases getElem?_set_cases h' with ⟨rfl, _, rfl⟩ | ⟨_, hold⟩
          · simp only [PC.waiting.injEq] at hpc'
            subst hpc'
            exact hch
          · exact hs.capCur t' th' cap cs hold hpc' hcs hopen
        case tokensLe => exact hs.tokensLe
        case drained =>
          intro h0
          simp only at h0
          omega
        case lockInv =>
          intro t' th' h' hpc'
          rcases getElem?_set_cases h' with ⟨rfl, _, rfl⟩ | ⟨hne, hold⟩
          · simp [holdsLockPC] at hpc'
          · have := hs.lockInv t' th' hold hpc'
            rw [hlock] at this
            exact absurd (Option.some.inj this) hne
        case errInv =>
          intro t' th' h'
          rcases getElem?_set_cases h' with ⟨rfl, _, rfl⟩ | ⟨_, hold⟩
          · intro w' e' hw'
            simp [outcomeOf] at hw'
          · exact hs.errInv t' th' hold
      case h_2 hch =>
        have hzero : s.cond.waiters = 0 := hs.chNone hch
        have hnowait : ∀ (t' : Nat) (th'' : Thread) (cap : Nat),
            s.threads[t']? = some th'' → th''.pc = .waiting cap → False := by
          intro t' th'' cap h' hpc'
          have hpos : 0 < countRegistered s :=
            countP_pos_of_getElem? h' (by simp [registered, hpc', registeredPC])
          simp only [countRegistered] at hpos hw
          omega
        cases Option.some.inj h
        constructor
        case noPanic => exact hs.noPanic
        case waitersCount =>
          have hc := countP_set_add registered hth
            { th with pc := .waiting s.cond.chans.length }
          simp only [countRegistered] at *
          simp [registered, hpc, registeredPC] at hc
          omega
        case chLt =>
          intro j hj
          simp only [Option.some.injEq] at hj
          subst hj
          simp [List.length_append]
        case chOpen =>
          intro j cs hj hcs
          simp only [Option.some.injEq] at hj
          subst hj
          rw [List.getElem?_concat_length] at hcs
          cases Option.some.inj hcs
          rfl
        case chNone =>
          intro hn
          exact absurd hn (by simp)
        case capLt =>
          intro t' th' cap h' hpc'
          rcases getElem?_set_cases h' with ⟨rfl, _, rfl⟩ | ⟨_, hold⟩
          · simp only [PC.waiting.injEq] at hpc'
            subst hpc'
            simp [List.length_append]
          · exact (hnowait t' th' cap hold hpc').elim
        case capCur =>
          intro t' th' cap cs h' hpc' hcs hopen
          rcases getElem?_set_cases h' with ⟨rfl, _, rfl⟩ | ⟨_, hold⟩
          · simp only [PC.waiting.injEq] at hpc'
            subst hpc'
            rfl
          · exact (hnowait t' th' cap hold hpc').elim
        case tokensLe =>
          intro j cs hj
          rcases getElem?_append_singleton_cases hj with hold | ⟨_, rfl⟩
          · exact hs.tokensLe j cs hold
          · exact Nat.zero_le 1
        case drained =>
          intro h0
          simp only at h0
          omega
        case lockInv =>
          intro t' th' h' hpc'
          rcases getElem?_set_cases h' with ⟨rfl, _, rfl⟩ | ⟨hne, hold⟩
          · simp [holdsLockPC] at hpc'
          · have := hs.lockInv t' th' hold hpc'
            rw [hlock] at this
            exact absurd (Option.some.inj this) hne
        case errInv =>
          intro t' th' h'
          rcases getElem?_set_cases h' with ⟨rfl, _, rfl⟩ | ⟨_, hold⟩
          · intro w' e' hw'
            simp [outcomeOf] at hw'
          · exact hs.errInv t' th' hold

theorem inv_resolveCancel {s s' : Sys} {t : Nat} (hs : Inv s)
    (h : stepResolveCancel t s = some s') : Inv s' := by
  unfold stepResolveCancel at h
  split at h
  case h_2 => exact absurd h (by simp)
  case h_1 th hth =>
    split at h
    case h_2 => exact absurd h (by simp)
    case h_1 cap hpc =>
      split at h
      case isFalse => exact absurd h (by simp)
      case isTrue hcanc =>
        cases Option.some.inj h
        constructor
        case noPanic => exact hs.noPanic
        case waitersCount =>
          have hc := countP_set_add registered hth
            { th with pc := .deregistering false (some th.cause) }
          have hw := hs.waitersCount
          simp only [countRegistered] at *
          simp [registered, hpc, registeredPC] at hc
          omega
        case chLt => exact hs.chLt
        case chOpen => exact hs.chOpen
        case chNone => exact hs.chNone
        case capLt =>
          intro t' th' cap' h' hpc'
          rcases getElem?_set_cases h' with ⟨rfl, _, rfl⟩ | ⟨_, hold⟩
          · simp at hpc'
          · exact hs.capLt t' th' cap' hold hpc'
        case capCur =>
          intro t' th' cap' cs h' hpc' hcs hopen
          rcases getElem?_set_cases h' with ⟨rfl, _, rfl⟩ | ⟨_, hold⟩
          · simp at hpc'
          · exact hs.capCur t' th' cap' cs hold hpc' hcs hopen
        case tokensLe => exact hs.tokensLe
        case drained => exact hs.drained
        case lockInv =>
          intro t' th' h' hpc'
          rcases getElem?_set_cases h' with ⟨rfl, _, rfl⟩ | ⟨_, hold⟩
          · simp [holdsLockPC] at hpc'
          · exact hs.lockInv t' th' hold hpc'
        case errInv =>
          intro t' th' h'
          rcases getElem?_set_cases h' with ⟨rfl, _, rfl⟩ | ⟨_, hold⟩
          · intro w' e' hw'
            simp only [outcomeOf, Option.some.injEq, Prod.mk.injEq] at hw'
            obtain ⟨hw1, hw2⟩ := hw'
            subst hw1
            subst hw2
            exact ⟨by simp, fun _ => ⟨rfl, hcanc⟩⟩
          · exact hs.errInv t' th' hold

theorem inv_resolveWake {s s' : Sys} {t : Nat} (hs : Inv s)
    (h : stepResolveWake t s = some s') : Inv s' := by
  unfold stepResolveWake at h
  split at h
  case h_2 => exact absurd h (by simp)
  case h_1 th hth =>
    split at h
    case h_2 => exact absurd h (by simp)
    case h_1 cap hpc =>
      split at h
      case h_2 => exact absurd h (by simp)
      case h_1 cs hcs =>
        have hreg : 0 < countRegistered s :=
          countP_pos_of_getElem? hth (by simp [registered, hpc, registeredPC])
        have hw := hs.waitersCount
        split at h
        case isTrue htok =>
          cases Option.some.inj h
          constructor
          case noPanic => exact hs.noPanic
          case waitersCount =>
            have hc := countP_set_add registered hth
              { th with pc := .deregistering true none }
            simp [registered, hpc, registeredPC] at hc
            simp only [countRegistered] at *
            omega
          case chLt =>
            intro j hj
            rw [List.length_set]
            exact hs.chLt j hj
          case chOpen =>
            intro j cs' hj hcs'
            rcases getElem?_set_cases hcs' with ⟨rfl, _, rfl⟩ | ⟨_, hold⟩
            · exact hs.chOpen cap cs hj hcs
            · exact hs.chOpen j cs' hj hold
          case chNone => exact hs.chNone
          case capLt =>
            intro t' th' cap' h' hpc'
            rcases getElem?_set_cases h' with ⟨rfl, _, rfl⟩ | ⟨_, hold⟩
            · simp at hpc'
            · rw [List.length_set]
              exact hs.capLt t' th' cap' hold hpc'
          case capCur =>
            intro t' th' cap' cs'' h' hpc' hcs'' hopen
            rcases getElem?_set_cases h' with ⟨rfl, _, rfl⟩ | ⟨_, hold⟩
            · simp at hpc'
            · rcases getElem?_set_cases hcs'' with ⟨rfl, _, rfl⟩ | ⟨_, holdc⟩
              · simp only at hopen
                exact hs.capCur t' th' cap cs hold hpc' hcs hopen
              · exact hs.capCur t' th' cap' cs'' hold hpc' holdc hopen
          case tokensLe =>
            intro j cs' hj
            rcases getElem?_set_cases hj with ⟨rfl, _, rfl⟩ | ⟨_, hold⟩
            · have := hs.tokensLe cap cs hcs
              show cs.tokens - 1 ≤ 1
              omega
            · exact hs.tokensLe j cs' hold
          case drained =>
            intro h0
            simp only at h0
            exfalso
            simp only [countRegistered] at hw hreg
            omega
          case lockInv =>
            intro t' th' h' hpc'
            rcases getElem?_set_cases h' with ⟨rfl, _, rfl⟩ | ⟨_, hold⟩
            · simp [holdsLockPC] at hpc'
            · exact hs.lockInv t' th' hold hpc'
          case errInv =>
            intro t' th' h'
            rcases getElem?_set_cases h' with ⟨rfl, _, rfl⟩ | ⟨_, hold⟩
            · intro w' e' hw'
              simp only [outcomeOf, Option.some.injEq, Prod.mk.injEq] at hw'
              obtain ⟨hw1, hw2⟩ := hw'
              subst hw1
              subst hw2
              exact ⟨fun _ => rfl, fun hf => by simp at hf⟩
            · exact hs.errInv t' th' hold
        case isFalse htok =>
          split at h
          case isFalse => exact absurd h (by simp)
          case isTrue hcl =>
            cases Option.some.inj h
            constructor
            case noPanic => exact hs.noPanic
            case waitersCount =>
              have hc := countP_set_add registered hth
                { th with pc := .deregistering true none }
              simp [registered, hpc, registeredPC] at hc
              simp only [countRegistered] at *
              omega
            case chLt => exact hs.chLt
            case chOpen => exact hs.chOpen
            case chNone => exact hs.chNone
            case capLt =>
              intro t' th' cap' h' hpc'
              rcases getElem?_set_cases h' with ⟨rfl, _, rfl⟩ | ⟨_, hold⟩
              · simp at hpc'
              · exact hs.capLt t' th' cap' hold hpc'
            case capCur =>
              intro t' th' cap' cs'' h' hpc' hcs'' hopen
              rcases getElem?_set_cases h' with ⟨rfl, _, rfl⟩ | ⟨_, hold⟩
              · simp at hpc'
              · exact hs.capCur t' th' cap' cs'' hold hpc' hcs'' hopen
            case tokensLe => exact hs.tokensLe
            case drained => exact hs.drained
            case lockInv =>
              intro t' th' h' hpc'
              rcases getElem?_set_cases h' with ⟨rfl, _, rfl⟩ | ⟨_, hold⟩
              · simp [holdsLockPC] at hpc'
              · exact hs.lockInv t' th' hold hpc'
            case errInv =>
              intro t' th' h'
              rcases getElem?_set_cases h' with ⟨rfl, _, rfl⟩ | ⟨_, hold⟩
              · intro w' e' hw'
                simp only [outcomeOf, Option.some.injEq, Prod.mk.injEq] at hw'
                obtain ⟨hw1, hw2⟩ := hw'
                subst hw1
                subst hw2
                exact ⟨fun _ => rfl, fun hf => by simp at hf⟩
              · exact hs.errInv t' th' hold

theorem inv_deregister {s s' : Sys} {t : Nat} (hs : Inv s)
    (h : stepDeregister t s = some s') : Inv s' := by
  unfold stepDeregister at h
  split at h
  case h_2 => exact absurd h (by simp)
  case h_1 th hth =>
    split at h
    case h_2 => exact absurd h (by simp)
    case h_1 w e hpc =>
      cases Option.some.inj h
      have hreg : 0 < countRegistered s :=
        countP_pos_of_getElem? hth (by simp [registered, hpc, registeredPC])
      have hw := hs.waitersCount
      by_cases hz : s.cond.waiters - 1 = 0
      · simp only [if_pos hz]
        refine ⟨?_, ?_, ?_, ?_, ?_, ?_, ?_, ?_, ?_, ?_, ?_⟩
        · exact hs.noPanic
        ·
          have hc := countP_set_add registered hth { th with pc := .acquiringL w e }
          simp [registered, hpc, registeredPC] at hc
          simp only [countRegistered] at *
          omega
        ·
          intro j hj
          rw [drainChans_length]
          exact hs.chLt j hj
        ·
          intro j cs' hj hcs'
          rcases drainChans_getElem? hcs' with ⟨cs, hold, hclosed, _⟩
          rw [hclosed]
          exact hs.chOpen j cs hj hold
        ·
          intro _
          exact hz
        ·
          intro t' th' cap h' hpc'
          rcases getElem?_set_cases h' with ⟨rfl, _, rfl⟩ | ⟨_, hold⟩
          · simp at hpc'
          · rw [drainChans_length]
            exact hs.capLt t' th' cap hold hpc'
        ·
          intro t' th' cap cs' h' hpc' hcs' hopen
          rcases getElem?_set_cases h' with ⟨rfl, _, rfl⟩ | ⟨_, hold⟩
          · simp at hpc'
          · rcases drainChans_getElem? hcs' with ⟨cs, holdc, hclosed, _⟩
            rw [hclosed] at hopen
            exact hs.capCur t' th' cap cs hold hpc' holdc hopen
        ·
          intro j cs' hj
          rcases drainChans_getElem? hj with ⟨cs, hold, _, htok⟩
          have := hs.tokensLe j cs hold
          omega
        ·
          intro _ j cs' hj hcs'
          rcases drainChans_getElem? hcs' with ⟨cs, hold, _, _⟩
          exact drainChans_current (c := s.cond) hj hold (hs.tokensLe j cs hold) hcs'
        ·
          intro t' th' h' hpc'
          rcases getElem?_set_cases h' with ⟨rfl, _, rfl⟩ | ⟨_, hold⟩
          · simp [holdsLockPC] at hpc'
          · exact hs.lockInv t' th' hold hpc'
        ·
          intro t' th' h'
          rcases getElem?_set_cases h' with ⟨rfl, _, rfl⟩ | ⟨_, hold⟩
          · intro w' e' hw'
            simp only [outcomeOf, Option.some.injEq, Prod.mk.injEq] at hw'
            obtain ⟨hw1, hw2⟩ := hw'
            subst hw1
            subst hw2
            exact hs.errInv t th hth w e (by rw [hpc]; rfl)
          · exact hs.errInv t' th' hold
      · simp only [if_neg hz]
        refine ⟨?_, ?_, ?_, ?_, ?_, ?_, ?_, ?_, ?_, ?_, ?_⟩
        · exact hs.noPanic
        ·
          have hc := countP_set_add registered hth { th with pc := .acquiringL w e }
          simp [registered, hpc, registeredPC] at hc
          simp only [countRegistered] at *
          omega
        · exact hs.chLt
        · exact hs.chOpen
        ·
          intro hn
          exfalso
          have := hs.chNone hn
          simp only [countRegistered] at hw hreg
          omega
        ·
          intro t' th' cap h' hpc'
          rcases getElem?_set_cases h' with ⟨rfl, _, rfl⟩ | ⟨_, hold⟩
          · simp at hpc'
          · exact hs.capLt t' th' cap hold hpc'
        ·
          intro t' th' cap cs' h' hpc' hcs' hopen
          rcases getElem?_set_cases h' with ⟨rfl, _, rfl⟩ | ⟨_, hold⟩
          · simp at hpc'
          · exact hs.capCur t' th' cap cs' hold hpc' hcs' hopen
        · exact hs.tokensLe
        ·
          intro h0
          exact absurd h0 hz
        ·
          intro t' th' h' hpc'
          rcases getElem?_set_cases h' with ⟨rfl, _, rfl⟩ | ⟨_, hold⟩
          · simp [holdsLockPC] at hpc'
          · exact hs.lockInv t' th' hold hpc'
        ·
          intro t' th' h'
          rcases getElem?_set_cases h' with ⟨rfl, _, rfl⟩ | ⟨_, hold⟩
          · intro w' e' hw'
            simp only [outcomeOf, Option.some.injEq, Prod.mk.injEq] at hw'
            obtain ⟨hw1, hw2⟩ := hw'
            subst hw1
            subst hw2
            exact hs.errInv t th hth w e (by rw [hpc]; rfl)
          · exact hs.errInv t' th' hold

theorem inv_signal {s s' : Sys} (hs : Inv s)
    (h : stepSignal s = some s') : Inv s' := by
  unfold stepSignal at h
  split at h
  case isFalse =>
    cases Option.some.inj h
    exact hs
  case isTrue hpos =>
    split at h
    case h_1 hch =>
      cases Option.some.inj h
      exact hs
    case h_2 i hch =>
      split at h
      case h_2 => exact absurd h (by simp)
      case h_1 cs hcs =>
        split at h
        case isTrue hcl =>
          exact absurd hcl (by rw [hs.chOpen i cs hch hcs]; simp)
        case isFalse hcl =>
          split at h
          case isFalse =>
            cases Option.some.inj h
            exact hs
          case isTrue h0 =>
            cases Option.some.inj h
            constructor
            case noPanic => exact hs.noPanic
            case waitersCount => exact hs.waitersCount
            case chLt =>
              intro j hj
              rw [List.length_set]
              exact hs.chLt j hj
            case chOpen =>
              intro j cs' hj hcs'
              rcases getElem?_set_cases hcs' with ⟨rfl, _, rfl⟩ | ⟨_, hold⟩
              · exact hs.chOpen i cs hj hcs
              · exact hs.chOpen j cs' hj hold
            case chNone =>
              intro hn
              rw [hch] at hn
              exact absurd hn (by simp)
            case capLt =>
              intro t' th' cap h' hpc'
              rw [List.length_set]
              exact hs.capLt t' th' cap h' hpc'
            case capCur =>
              intro t' th' cap cs'' h' hpc' hcs'' hopen
              rcases getElem?_set_cases hcs'' with ⟨rfl, _, rfl⟩ | ⟨_, hold⟩
              · simp only at hopen
                exact hs.capCur t' th' i cs h' hpc' hcs hopen
              · exact hs.capCur t' th' cap cs'' h' hpc' hold hopen
            case tokensLe =>
              intro j cs' hj
              rcases getElem?_set_cases hj with ⟨rfl, _, rfl⟩ | ⟨_, hold⟩
              · exact le_refl 1
              · exact hs.tokensLe j cs' hold
            case drained =>
              intro hzero
              exfalso
              simp only at hzero
              omega
            case lockInv => exact hs.lockInv
            case errInv => exact hs.errInv

theorem inv_broadcast {s s' : Sys} (hs : Inv s)
    (h : stepBroadcast s = some s') : Inv s' := by
  unfold stepBroadcast at h
  split at h
  case isFalse =>
    cases Option.some.inj h
    exact hs
  case isTrue hpos =>
    split at h
    case h_1 hch =>
      exfalso
      have := hs.chNone hch
      omega
    case h_2 i hch =>
      split at h
      case h_2 => exact absurd h (by simp)
      case h_1 cs hcs =>
        split at h
        case isTrue hcl =>
          exact absurd hcl (by rw [hs.chOpen i cs hch hcs]; simp)
        case isFalse hcl =>
          cases Option.some.inj h
          have hlen := List.length_set s.cond.chans i { cs with closed := true }
          constructor
          case noPanic => exact hs.noPanic
          case waitersCount => exact hs.waitersCount
          case chLt =>
            intro j hj
            simp only [Option.some.injEq] at hj
            subst hj
            simp [List.length_append, List.length_set]
          case chOpen =>
            intro j cs' hj hcs'
            simp only [Option.some.injEq] at hj
            subst hj
            rw [← hlen, List.getElem?_concat_length] at hcs'
            cases Option.some.inj hcs'
            rfl
          case chNone =>
            intro hn
            exact absurd hn (by simp)
          case capLt =>
            intro t' th' cap h' hpc'
            have := hs.capLt t' th' cap h' hpc'
            simp [List.length_append, List.length_set]
            omega
          case capCur =>
            intro t' th' cap cs' h' hpc' hcs' hopen
            have hlt := hs.capLt t' th' cap h' hpc'
            rw [List.getElem?_append, if_pos (by rw [hlen]; exact hlt)] at hcs'
            rcases getElem?_set_cases hcs' with ⟨rfl, _, rfl⟩ | ⟨hne, hold⟩
            · simp at hopen
            · have := hs.capCur t' th' cap cs' h' hpc' hold hopen
              rw [hch] at this
              exact absurd (Option.some.inj this) hne
          case tokensLe =>
            intro j cs' hj
            rcases getElem?_append_singleton_cases hj with hold | ⟨_, rfl⟩
            · rcases getElem?_set_cases hold with ⟨rfl, _, rfl⟩ | ⟨_, holdc⟩
              · exact hs.tokensLe i cs hcs
              · exact hs.tokensLe j cs' holdc
            · exact Nat.zero_le 1
          case drained =>
            intro hzero
            exfalso
            simp only at hzero
            omega
          case lockInv => exact hs.lockInv
          case errInv => exact hs.errInv

theorem inv_step {s s' : Sys} {a : Action} (hs : Inv s)
    (h : step a s = some s') : Inv s' := by
  cases a with
  | acquireL t => exact inv_acquireL hs h
  | callWait t => exact inv_callWait hs h
  | resolveWake t => exact inv_resolveWake hs h
  | resolveCancel t => exact inv_resolveCancel hs h
  | deregister t => exact inv_deregister hs h
  | reacquireL t => exact inv_reacquireL hs h
  | releaseL t => exact inv_releaseL hs h
  | cancelCtx t => exact inv_cancelCtx hs h
  | signal => exact inv_signal hs h
  | broadcast => exact inv_broadcast hs h

theorem inv_run {as : List Action} : ∀ {s s' : Sys}, Inv s → run s as = some s' → Inv s' := by
  induction as with
  | nil =>
    intro s s' hs h
    cases Option.some.inj h
    exact hs
  | cons a as ih =>
    intro s s' hs h
    unfold run at h
    cases hst : step a s with
    | none => rw [hst] at h; exact absurd h (by simp)
    | some s1 => rw [hst] at h; exact ih (inv_step hs hst) h

/-- Every reachable state of the system satisfies the global invariant. -/
theorem inv_reachable {causes : List Nat} {s : Sys} (h : Reachable causes s) : Inv s := by
  rcases h with ⟨as, hr⟩
  exact inv_run (inv_initSys causes) hr

/-! ## Helper lemmas about individual steps, used by the claim theorems -/

theorem no_waiting_of_waiters_zero {s : Sys} (hi : Inv s)
    (hz : s.cond.waiters = 0) {t : Nat} {th : Thread} {cap : Nat}
    (hth : s.threads[t]? = some th) (hpc : th.pc = .waiting cap) : False := by
  have hpos : 0 < countRegistered s :=
    countP_pos_of_getElem? hth (by simp [registered, hpc, registeredPC])
  have hw := hi.waitersCount
  simp only [countRegistered] at hpos hw
  omega

theorem broadcast_keeps_threads {s s' : Sys} (h : stepBroadcast s = some s') :
    s'.threads = s.threads ∧ s'.lockL = s.lockL := by
  unfold stepBroadcast at h
  split at h
  case isFalse =>
    cases Option.some.inj h
    exact ⟨rfl, rfl⟩
  case isTrue =>
    split at h
    case h_1 =>
      cases Option.some.inj h
      exact ⟨rfl, rfl⟩
    case h_2 =>
      split at h
      case h_2 => exact absurd h (by simp)
      case h_1 =>
        split at h
        case isTrue =>
          cases Option.some.inj h
          exact ⟨rfl, rfl⟩
        case isFalse =>
          cases Option.some.inj h
          exact ⟨rfl, rfl⟩

theorem broadcast_closes_captured {s s' : Sys} (hi : Inv s)
    (hb : stepBroadcast s = some s') {t : Nat} {th : Thread} {cap : Nat}
    (hth : s.threads[t]? = some th) (hpc : th.pc = .waiting cap) :
    ∃ cs', s'.cond.chans[cap]? = some cs' ∧ cs'.closed = true := by
  have hlt := hi.capLt t th cap hth hpc
  unfold stepBroadcast at hb
  split at hb
  case isFalse hpos =>
    exfalso
    have hw := hi.waitersCount
    exact no_waiting_of_waiters_zero hi (by omega) hth hpc
  case isTrue hpos =>
    split at hb
    case h_1 hch =>
      exfalso
      have := hi.chNone hch
      omega
    case h_2 i hch =>
      split at hb
      case h_2 => exact absurd hb (by simp)
      case h_1 cs hcs =>
        split at hb
        case isTrue hcl =>
          exact absurd hcl (by rw [hi.chOpen i cs hch hcs]; simp)
        case isFalse hcl =>
          cases Option.some.inj hb
          have hlen := List.length_set s.cond.chans i { cs with closed := true }
          by_cases hcap : i = cap
          · subst hcap
            refine ⟨{ cs with closed := true }, ?_, rfl⟩
            exact getElem?_append_singleton_left (List.getElem?_set_self hlt)
          · cases hcso : s.cond.chans[cap]? with
            | none =>
              exfalso
              rw [List.getElem?_eq_none_iff] at hcso
              omega
            | some cs0 =>
              have hclosed0 : cs0.closed = true := by
                by_contra hopen
                have := hi.capCur t th cap cs0 hth hpc hcso
                  (by cases hcv : cs0.closed; rfl; exact absurd hcv hopen)
                rw [hch] at this
                exact hcap (Option.some.inj this)
              refine ⟨cs0, ?_, hclosed0⟩
              refine getElem?_append_singleton_left ?_
              rw [List.getElem?_set_ne hcap]
              exact hcso

theorem resolveCancel_none_of_not_cancelled {s : Sys} {t : Nat} {th : Thread}
    (hth : s.threads[t]? = some th) (hcanc : th.cancelled = false) :
    stepResolveCancel t s = none := by
  unfold stepResolveCancel
  rw [hth]
  obtain ⟨pc, canc, cause⟩ := th
  simp only at hcanc
  subst hcanc
  cases pc <;> simp

theorem resolveWake_succeeds_of_closed {s : Sys} {t : Nat} {th : Thread} {cap : Nat}
    {cs : ChanSt} (hth : s.threads[t]? = some th) (hpc : th.pc = .waiting cap)
    (hcs : s.cond.chans[cap]? = some cs) (hcl : cs.closed = true) :
    ∃ s'', stepResolveWake t s = some s'' ∧
      s''.threads[t]? = some { th with pc := .deregistering true none } := by
  have hlt : t < s.threads.length := by
    rcases List.getElem?_eq_some_iff.mp hth with ⟨hlt, _⟩
    exact hlt
  unfold stepResolveWake
  rw [hth]
  dsimp only
  rw [hpc]
  dsimp only
  rw [hcs]
  dsimp only
  by_cases htok : 0 < cs.tokens
  · rw [if_pos htok]
    exact ⟨_, rfl, List.getElem?_set_self hlt⟩
  · rw [if_neg htok, hcl]
    simp only [if_true]
    exact ⟨_, rfl, List.getElem?_set_self hlt⟩

theorem callWait_captures_empty {s : Sys} (hi : Inv s)
    (hcur : ∀ (i : Nat) (cs : ChanSt), s.cond.ch = some i →
      s.cond.chans[i]? = some cs → cs.tokens = 0)
    {t : Nat} {s'' : Sys} (h : stepCallWait t s = some s'') :
    ∀ (th' : Thread), s''.threads[t]? = some th' →
      ∃ (cap : Nat) (cs : ChanSt), th'.pc = .waiting cap ∧
        s''.cond.chans[cap]? = some cs ∧ cs.closed = false ∧ cs.tokens = 0 := by
  unfold stepCallWait at h
  split at h
  case h_2 => exact absurd h (by simp)
  case h_1 th hth =>
    have hlt : t < s.threads.length := by
      rcases List.getElem?_eq_some_iff.mp hth with ⟨hl, _⟩
      exact hl
    split at h
    case isFalse => exact absurd h (by simp)
    case isTrue hcond =>
      split at h
      case h_1 i hch =>
        cases Option.some.inj h
        intro th' hth'
        have hset : (s.threads.set t { th with pc := .waiting i })[t]? =
            some { th with pc := .waiting i } := List.getElem?_set_self hlt
        rw [hset] at hth'
        cases Option.some.inj hth'
        cases hcso : s.cond.chans[i]? with
        | none =>
          exfalso
          rw [List.getElem?_eq_none_iff] at hcso
          have := hi.chLt i hch
          omega
        | some cs =>
          exact ⟨i, cs, rfl, hcso, hi.chOpen i cs hch hcso, hcur i cs hch hcso⟩
      case h_2 hch =>
        cases Option.some.inj h
        intro th' hth'
        have hset : (s.threads.set t { th with pc := .waiting s.cond.chans.length })[t]? =
            some { th with pc := .waiting s.cond.chans.length } := List.getElem?_set_self hlt
        rw [hset] at hth'
        cases Option.some.inj hth'
        exact ⟨s.cond.chans.length, freshChan, rfl,
          List.getElem?_concat_length .., rfl, rfl⟩

theorem broadcast_current_empty {s s' : Sys} (hi : Inv s)
    (hb : stepBroadcast s = some s') :
    ∀ (i : Nat) (cs : ChanSt), s'.cond.ch = some i →
      s'.cond.chans[i]? = some cs → cs.tokens = 0 := by
  unfold stepBroadcast at hb
  split at hb
  case isFalse hpos =>
    cases Option.some.inj hb
    intro i cs hch hcs
    have hw := hi.waitersCount
    exact hi.drained (by omega) i cs hch hcs
  case isTrue hpos =>
    split at hb
    case h_1 hch =>
      exfalso
      have := hi.chNone hch
      omega
    case h_2 i hch =>
      split at hb
      case h_2 => exact absurd hb (by simp)
      case h_1 cs hcs =>
        split at hb
        case isTrue hcl =>
          exact absurd hcl (by rw [hi.chOpen i cs hch hcs]; simp)
        case isFalse hcl =>
          cases Option.some.inj hb
          intro j cs' hch' hcs'
          simp only [Option.some.injEq] at hch'
          subst hch'
          have hlen := List.length_set s.cond.chans i { cs with closed := true }
          rw [← hlen, List.getElem?_concat_length] at hcs'
          cases Option.some.inj hcs'
          rfl

theorem chans_quiet_step {s s' : Sys} {a : Action}
    (hns : a ≠ .signal) (hnb : a ≠ .broadcast) (h : step a s = some s')
    {cap : Nat} {cs cs' : ChanSt}
    (hcs : s.cond.chans[cap]? = some cs) (hcs' : s'.cond.chans[cap]? = some cs') :
    cs'.closed = cs.closed ∧ cs'.tokens ≤ cs.tokens := by
  cases a with
  | signal => exact absurd rfl hns
  | broadcast => exact absurd rfl hnb
  | acquireL t =>
    simp only [step] at h
    unfold stepAcquireL at h
    split at h
    case h_2 => exact absurd h (by simp)
    case h_1 th hth =>
      split at h
      case isFalse => exact absurd h (by simp)
      case isTrue =>
        cases Option.some.inj h
        cases Option.some.inj (hcs.symm.trans hcs')
        exact ⟨rfl, le_refl _⟩
  | callWait t =>
    simp only [step] at h
    unfold stepCallWait at h
    split at h
    case h_2 => exact absurd h (by simp)
    case h_1 th hth =>
      split at h
      case isFalse => exact absurd h (by simp)
      case isTrue =>
        split at h
        case h_1 i hch =>
          cases Option.some.inj h
          cases Option.some.inj (hcs.symm.trans hcs')
          exact ⟨rfl, le_refl _⟩
        case h_2 hch =>
          cases Option.some.inj h
          have hlt : cap < s.cond.chans.length := by
            rcases List.getElem?_eq_some_iff.mp hcs with ⟨hl, _⟩
            exact hl
          have hcs'' : (s.cond.chans ++ [freshChan])[cap]? = some cs' := hcs'
          rw [List.getElem?_append, if_pos hlt] at hcs''
          cases Option.some.inj (hcs.symm.trans hcs'')
          exact ⟨rfl, le_refl _⟩
  | resolveWake t =>
    simp only [step] at h
    unfold stepResolveWake at h
    split at h
    case h_2 => exact absurd h (by simp)
    case h_1 th hth =>
      split at h
      case h_2 => exact absurd h (by simp)
      case h_1 cap0 hpc =>
        split at h
        case h_2 => exact absurd h (by simp)
        case h_1 csm hcsm =>
          split at h
          case isTrue htok =>
            cases Option.some.inj h
            rcases getElem?_set_cases hcs' with ⟨rfl, _, rfl⟩ | ⟨_, hold⟩
            · cases Option.some.inj (hcs.symm.trans hcsm)
              exact ⟨rfl, Nat.sub_le _ _⟩
            · cases Option.some.inj (hcs.symm.trans hold)
              exact ⟨rfl, le_refl _⟩
          case isFalse =>
            split at h
            case isFalse => exact absurd h (by simp)
            case isTrue =>
              cases Option.some.inj h
              cases Option.some.inj (hcs.symm.trans hcs')
              exact ⟨rfl, le_refl _⟩
  | resolveCancel t =>
    simp only [step] at h
    unfold stepResolveCancel at h
    split at h
    case h_2 => exact absurd h (by simp)
    case h_1 th hth =>
      split at h
      case h_2 => exact absurd h (by simp)
      case h_1 cap0 hpc =>
        split at h
        case isFalse => exact absurd h (by simp)
        case isTrue =>
          cases Option.some.inj h
          cases Option.some.inj (hcs.symm.trans hcs')
          exact ⟨rfl, le_refl _⟩
  | deregister t =>
    simp only [step] at h
    unfold stepDeregister at h
    split at h
    case h_2 => exact absurd h (by simp)
    case h_1 th hth =>
      split at h
      case h_2 => exact absurd h (by simp)
      case h_1 w e hpc =>
        cases Option.some.inj h
        have hcs'' : (if s.cond.waiters - 1 = 0 then drainChans s.cond
            else s.cond.chans)[cap]? = some cs' := hcs'
        split at hcs''
        · rcases drainChans_getElem? hcs'' with ⟨cs0, hold, hclosed, htokle⟩
          cases Option.some.inj (hcs.symm.trans hold)
          exact ⟨hclosed, htokle⟩
        · cases Option.some.inj (hcs.symm.trans hcs'')
          exact ⟨rfl, le_refl _⟩
  | reacquireL t =>
    simp only [step] at h
    unfold stepReacquireL at h
    split at h
    case h_2 => exact absurd h (by simp)
    case h_1 th hth =>
      split at h
      case h_2 => exact absurd h (by simp)
      case h_1 w e hpc =>
        split at h
        case isFalse => exact absurd h (by simp)
        case isTrue =>
          cases Option.some.inj h
          cases Option.some.inj (hcs.symm.trans hcs')
          exact ⟨rfl, le_refl _⟩
  | releaseL t =>
    simp only [step] at h
    unfold stepReleaseL at h
    split at h
    case h_2 => exact absurd h (by simp)
    case h_1 th hth =>
      split at h
      case h_2 => exact absurd h (by simp)
      case h_1 w e hpc =>
        split at h
        case isFalse => exact absurd h (by simp)
        case isTrue =>
          cases Option.some.inj h
          cases Option.some.inj (hcs.symm.trans hcs')
          exact ⟨rfl, le_refl _⟩
  | cancelCtx t =>
    simp only [step] at h
    unfold stepCancelCtx at h
    split at h
    case h_2 => exact absurd h (by simp)
    case h_1 th hth =>
      cases Option.some.inj h
      cases Option.some.inj (hcs.symm.trans hcs')
      exact ⟨rfl, le_refl _⟩

/-! ## The claims -/

/-- C1: every waiter that registered (incremented the waiter count and
captured the current wake channel) before a Broadcast acquires the
internal mutex is woken by that Broadcast: afterwards its captured
channel is closed, so its wake branch is enabled and resolves to a
normal wakeup, while absent an independent cancellation its cancellation
branch is disabled; and a waiter that registers after the Broadcast
captures an open, empty channel, so that Broadcast does not
retroactively wake it. -/
theorem broadcast_wakes_all_registered {causes : List Nat} {s s' : Sys}
    (h : Reachable causes s) (hb : stepBroadcast s = some s') :
    (∀ (t : Nat) (th : Thread) (cap : Nat),
      s.threads[t]? = some th → th.pc = .waiting cap →
        (∃ cs', s'.cond.chans[cap]? = some cs' ∧ cs'.closed = true) ∧
        (th.cancelled = false → stepResolveCancel t s' = none) ∧
        (∃ s'', stepResolveWake t s' = some s'' ∧
          s''.threads[t]? = some { th with pc := .deregistering true none })) ∧
    (∀ (t : Nat) (s'' : Sys), stepCallWait t s' = some s'' →
      ∀ (th' : Thread), s''.threads[t]? = some th' →
        ∃ (cap : Nat) (cs : ChanSt), th'.pc = .waiting cap ∧
          s''.cond.chans[cap]? = some cs ∧ cs.closed = false ∧ cs.tokens = 0) := by
  have hi := inv_reachable h
  have hi' := inv_broadcast hi hb
  obtain ⟨hthreads, _⟩ := broadcast_keeps_threads hb
  constructor
  · intro t th cap hth hpc
    obtain ⟨cs', hcs', hcl⟩ := broadcast_closes_captured hi hb hth hpc
    have hth' : s'.threads[t]? = some th := by rw [hthreads]; exact hth
    refine ⟨⟨cs', hcs', hcl⟩, ?_, ?_⟩
    · intro hcanc
      exact resolveCancel_none_of_not_cancelled hth' hcanc
    · exact resolveWake_succeeds_of_closed hth' hpc hcs' hcl
  · intro t s'' hcw
    exact callWait_captures_empty hi' (broadcast_current_empty hi hb) hcw

/-- C2: for every goroutine that has returned from `Wait`/`WaitContext`
(program point `done`), whatever the recorded outcome (woken or
cancelled), that goroutine is the holder of the external lock `c.L`. -/
theorem waitContext_returns_holding_lock {causes : List Nat} {s : Sys}
    (h : Reachable causes s) :
    ∀ (t : Nat) (th : Thread) (w : Bool) (e : Option Nat),
      s.threads[t]? = some th → th.pc = .done w e → s.lockL = some t := by
  intro t th w e hth hpc
  exact (inv_reachable h).lockInv t th hth (by rw [hpc]; rfl)

/-- C3: in every reachable state, a goroutine past its `select` carries
`err = nil` iff it was woken via the wake channel, and carries the
cancellation cause `ctx.Err()` iff it resolved via the cancellation
branch (which requires the context to be cancelled); and no reachable
state is panicked, so cancellation is only ever reported through the
return value, never as a fault. -/
theorem waitContext_error_iff_cancelled {causes : List Nat} {s : Sys}
    (h : Reachable causes s) :
    s.cond.panicked = false ∧
    ∀ (t : Nat) (th : Thread) (w : Bool) (e : Option Nat),
      s.threads[t]? = some th → outcomeOf th.pc = some (w, e) →
        (e = none ↔ w = true) ∧
        (w = false → e = some th.cause ∧ th.cancelled = true) := by
  have hi := inv_reachable h
  refine ⟨hi.noPanic, ?_⟩
  intro t th w e hth hout
  have he := hi.errInv t th hth w e hout
  refine ⟨⟨?_, he.1⟩, he.2⟩
  intro hnone
  cases w with
  | true => rfl
  | false =>
    rcases he.2 rfl with ⟨he2, _⟩
    rw [hnone] at he2
    exact absurd he2 (by simp)

/-- C4: Signal never deposits more than one pending wake token: with no
registered waiter it is the exact identity on the state; with a token
already pending and unconsumed in the current channel it is the exact
identity; and its delivery attempt always completes immediately
(non-blocking), leaving at most one buffered token in every channel. -/
theorem signal_at_most_one_token {causes : List Nat} {s : Sys}
    (h : Reachable causes s) :
    (s.cond.waiters = 0 → stepSignal s = some s) ∧
    (∀ (i : Nat) (cs : ChanSt), s.cond.ch = some i → s.cond.chans[i]? = some cs →
      cs.tokens = 1 → stepSignal s = some s) ∧
    (∃ s', stepSignal s = some s' ∧ s'.cond.panicked = false ∧
      ∀ (j : Nat) (cs' : ChanSt), s'.cond.chans[j]? = some cs' → cs'.tokens ≤ 1) := by
  have hi := inv_reachable h
  refine ⟨?_, ?_, ?_⟩
  · intro hz
    unfold stepSignal
    rw [if_neg (by omega)]
  · intro i cs hch hcs htok
    unfold stepSignal
    by_cases hpos : 0 < s.cond.waiters
    · rw [if_pos hpos, hch]
      dsimp only
      rw [hcs]
      dsimp only
      rw [if_neg (by rw [hi.chOpen i cs hch hcs]; simp), if_neg (by omega)]
    · rw [if_neg hpos]
  · by_cases hpos : 0 < s.cond.waiters
    · cases hch : s.cond.ch with
      | none =>
        exfalso
        have := hi.chNone hch
        omega
      | some i =>
        cases hcs : s.cond.chans[i]? with
        | none =>
          exfalso
          rw [List.getElem?_eq_none_iff] at hcs
          have := hi.chLt i hch
          omega
        | some cs =>
          unfold stepSignal
          rw [if_pos hpos, hch]
          dsimp only
          rw [hcs]
          dsimp only
          rw [if_neg (by rw [hi.chOpen i cs hch hcs]; simp)]
          by_cases h0 : cs.tokens = 0
          · rw [if_pos h0]
            refine ⟨_, rfl, hi.noPanic, ?_⟩
            intro j cs' hj
            rcases getElem?_set_cases hj with ⟨rfl, _, rfl⟩ | ⟨_, hold⟩
            · exact le_refl 1
            · exact hi.tokensLe j cs' hold
          · rw [if_neg h0]
            exact ⟨s, rfl, hi.noPanic, hi.tokensLe⟩
    · unfold stepSignal
      rw [if_neg hpos]
      exact ⟨s, rfl, hi.noPanic, hi.tokensLe⟩

/-- C5: Broadcast with `waiters > 0` closes the current wake channel and
installs a fresh (open, empty) channel as the next generation at a new
channel identity, leaving the waiter count unchanged and panicking
nowhere; Broadcast with `waiters == 0` is the exact identity on the
state. -/
theorem broadcast_swaps_or_noop {causes : List Nat} {s : Sys}
    (h : Reachable causes s) :
    (s.cond.waiters = 0 → stepBroadcast s = some s) ∧
    (∀ i : Nat, 0 < s.cond.waiters → s.cond.ch = some i →
      ∃ (s' : Sys) (cs : ChanSt), stepBroadcast s = some s' ∧
        s.cond.chans[i]? = some cs ∧
        s'.cond.chans[i]? = some { cs with closed := true } ∧
        s'.cond.ch = some s.cond.chans.length ∧
        i ≠ s.cond.chans.length ∧
        s'.cond.chans[s.cond.chans.length]? = some freshChan ∧
        s'.cond.waiters = s.cond.waiters ∧
        s'.cond.panicked = false) := by
  have hi := inv_reachable h
  constructor
  · intro hz
    unfold stepBroadcast
    rw [if_neg (by omega)]
  · intro i hpos hch
    have hlt := hi.chLt i hch
    cases hcs : s.cond.chans[i]? with
    | none =>
      exfalso
      rw [List.getElem?_eq_none_iff] at hcs
      omega
    | some cs =>
      have hlen := List.length_set s.cond.chans i { cs with closed := true }
      have hb : stepBroadcast s = some { s with cond := { s.cond with
          chans := (s.cond.chans.set i { cs with closed := true }) ++ [freshChan],
          ch := some s.cond.chans.length } } := by
        unfold stepBroadcast
        rw [if_pos hpos, hch]
        dsimp only
        rw [hcs]
        dsimp only
        rw [if_neg (by rw [hi.chOpen i cs hch hcs]; simp)]
      refine ⟨_, cs, hb, rfl, ?_, rfl, by omega, ?_, rfl, hi.noPanic⟩
      · exact getElem?_append_singleton_left (List.getElem?_set_self hlt)
      · show ((s.cond.chans.set i { cs with closed := true }) ++
            [freshChan])[s.cond.chans.length]? = some freshChan
        rw [← hlen, List.getElem?_concat_length]

/-- C6: the deregistration that brings the waiter count to 0 leaves the
current wake channel with no buffered token (an unconsumed token is
drained inside the same mutex section); in every reachable state with
`waiters = 0` the current channel is empty; no step other than Signal
and Broadcast can make a quiet (open, empty) channel wakeable; and a
waiter blocked on a quiet channel cannot take its wake branch, so such
a waiter wakes only via a subsequent Signal or Broadcast. -/
theorem last_waiter_drains_token {causes : List Nat} {s : Sys}
    (h : Reachable causes s) :
    (∀ (t : Nat) (s' : Sys), stepDeregister t s = some s' → s'.cond.waiters = 0 →
      ∀ (i : Nat) (cs : ChanSt), s'.cond.ch = some i → s'.cond.chans[i]? = some cs →
        cs.tokens = 0) ∧
    (s.cond.waiters = 0 → ∀ (i : Nat) (cs : ChanSt), s.cond.ch = some i →
      s.cond.chans[i]? = some cs → cs.tokens = 0) ∧
    (∀ (a : Action), a ≠ .signal → a ≠ .broadcast → ∀ (s' : Sys), step a s = some s' →
      ∀ (cap : Nat) (cs cs' : ChanSt), s.cond.chans[cap]? = some cs →
        cs.closed = false → cs.tokens = 0 → s'.cond.chans[cap]? = some cs' →
        cs'.closed = false ∧ cs'.tokens = 0) ∧
    (∀ (t : Nat) (th : Thread) (cap : Nat) (cs : ChanSt),
      s.threads[t]? = some th → th.pc = .waiting cap → s.cond.chans[cap]? = some cs →
      cs.closed = false → cs.tokens = 0 → stepResolveWake t s = none) := by
  have hi := inv_reachable h
  refine ⟨?_, hi.drained, ?_, ?_⟩
  · intro t s' hd h0 i cs hch hcs
    exact (inv_deregister hi hd).drained h0 i cs hch hcs
  · intro a hns hnb s' hstep cap cs cs' hcs hcl htok hcs'
    obtain ⟨hceq, htle⟩ := chans_quiet_step hns hnb hstep hcs hcs'
    exact ⟨by rw [hceq, hcl], by omega⟩
  · intro t th cap cs hth hpc hcs hcl htok
    unfold stepResolveWake
    rw [hth]
    dsimp only
    rw [hpc]
    dsimp only
    rw [hcs]
    dsimp only
    rw [if_neg (by omega), if_neg (by rw [hcl]; simp)]

/-- C7: in every reachable state the waiter count equals the number of
goroutines inside the wait path between its increment and its decrement
(so each entry increments it exactly once and each exit — wake or
cancellation — decrements it exactly once), and in particular
`waiters >= 0` always holds. -/
theorem waiters_nonneg_counts_registered {causes : List Nat} {s : Sys}
    (h : Reachable causes s) :
    s.cond.waiters = (countRegistered s : Int) ∧ 0 ≤ s.cond.waiters := by
  have hi := inv_reachable h
  have hw := hi.waitersCount
  exact ⟨hw, by omega⟩

/-- C8: the copy-guard: the very first operation on a Cond whose checker
is unset stores the Cond's own address `a1` and proceeds, and every
subsequent operation invoked on a by-value copy of that Cond living at a
different address `a2` hits the `"contextcond.Cond is copied"` panic —
deterministically, for every operation `op` and every state. -/
theorem copied_cond_panics {a1 a2 : Nat} (h1 : a1 ≠ 0) (h2 : a2 ≠ a1) :
    (∀ (op : CondSt → CondSt) (c : CondSt), checkedOp a1 0 op c = some (a1, op c)) ∧
    (∀ (op : CondSt → CondSt) (c : CondSt), checkedOp a2 a1 op c = none) := by
  constructor
  · intro op c
    unfold checkedOp copyCheck
    rw [if_pos (Ne.symm h1), if_pos rfl]
  · intro op c
    unfold checkedOp copyCheck
    rw [if_pos (Ne.symm h2), if_neg h1]

/-- C9: a zero-value Cond is safe to use once `L` is assigned:
`NewCond` (`&Cond{L: l}`) produces exactly the zero internal state, the
first copy-guard check on any nonzero address passes, and no sequence of
operations starting from the zero value ever reaches a panicked state
(in particular no invalid-instance misuse failure exists). -/
theorem zero_value_cond_safe (causes : List Nat) :
    (initSys causes).cond = newCondSt ∧
    (∀ a : Nat, a ≠ 0 → copyCheck a 0 = some a) ∧
    (∀ s : Sys, Reachable causes s → s.cond.panicked = false) := by
  refine ⟨rfl, ?_, ?_⟩
  · intro a ha
    unfold copyCheck
    rw [if_pos (Ne.symm ha), if_pos rfl]
  · intro s hre
    exact (inv_reachable hre).noPanic

/-- C10: in every reachable state a positive waiter count implies the
wake channel field is non-nil (`WaitContext` creates the channel before
incrementing the count), and consequently neither Broadcast's `close`
nor Signal's send ever panics (on a nil or closed channel). -/
theorem waiters_pos_channel_nonnil {causes : List Nat} {s : Sys}
    (h : Reachable causes s) :
    (0 < s.cond.waiters → s.cond.ch ≠ none) ∧
    (∀ s' : Sys, stepBroadcast s = some s' → s'.cond.panicked = false) ∧
    (∀ s' : Sys, stepSignal s = some s' → s'.cond.panicked = false) := by
  have hi := inv_reachable h
  refine ⟨?_, ?_, ?_⟩
  · intro hpos hn
    have := hi.chNone hn
    omega
  · intro s' hb
    exact (inv_broadcast hi hb).noPanic
  · intro s' hb
    exact (inv_signal hi hb).noPanic

/-! ## Concrete witness states: small executions of the system -/

def wTrace : List Action := [.acquireL 0, .callWait 0]

def wWaiting : Sys := (reach [7] wTrace).getD (initSys [])

def wDoneTrace : List Action :=
  [.acquireL 0, .callWait 0, .signal, .resolveWake 0, .deregister 0, .reacquireL 0]

def wDone : Sys := (reach [7] wDoneTrace).getD (initSys [])

def wCancelTrace : List Action :=
  [.acquireL 0, .callWait 0, .cancelCtx 0, .resolveCancel 0, .deregister 0, .reacquireL 0]

def wCancelDone : Sys := (reach [7] wCancelTrace).getD (initSys [])

def wTokenTrace : List Action := [.acquireL 0, .callWait 0, .signal]

def wToken : Sys := (reach [7] wTokenTrace).getD (initSys [])

def wDeregTrace : List Action :=
  [.acquireL 0, .callWait 0, .signal, .cancelCtx 0, .resolveCancel 0]

def wDereg : Sys := (reach [7] wDeregTrace).getD (initSys [])

def wDereg2 : Sys := (stepDeregister 0 wDereg).getD (initSys [])

def w2Trace : List Action := [.acquireL 0, .callWait 0, .acquireL 1]

def w2 : Sys := (reach [7, 8] w2Trace).getD (initSys [])

def w2B : Sys := (stepBroadcast w2).getD (initSys [])

def w2CW : Sys := (stepCallWait 1 w2B).getD (initSys [])

def wWaitB : Sys := (stepBroadcast wWaiting).getD (initSys [])

def wWaitS : Sys := (stepSignal wWaiting).getD (initSys [])

/-- Witness for C1: in the two-goroutine execution where goroutine 0 is
waiting and goroutine 1 has the external lock, Broadcast closes the
captured channel of goroutine 0, whose wake branch then succeeds while
its cancellation branch is disabled; and goroutine 1 registering after
the Broadcast captures the fresh open, empty channel. -/
theorem broadcast_wakes_all_registered_witness :
    (∃ cs', w2B.cond.chans[0]? = some cs' ∧ cs'.closed = true) ∧
    stepResolveCancel 0 w2B = none ∧
    (∃ s'', stepResolveWake 0 w2B = some s'' ∧
      s''.threads[0]? = some { pc := .deregistering true none, cancelled := false, cause := 7 }) ∧
    (∃ (cap : Nat) (cs : ChanSt),
      (⟨.waiting 1, false, 8⟩ : Thread).pc = .waiting cap ∧
      w2CW.cond.chans[cap]? = some cs ∧ cs.closed = false ∧ cs.tokens = 0) := by
  have hth := broadcast_wakes_all_registered
    (⟨w2Trace, by rfl⟩ : Reachable [7, 8] w2) (by rfl : stepBroadcast w2 = some w2B)
  have h1 := hth.1 0 ⟨.waiting 0, false, 7⟩ 0 (by rfl) rfl
  have h2 := hth.2 1 w2CW (by rfl) ⟨.waiting 1, false, 8⟩ (by rfl)
  exact ⟨h1.1, h1.2.1 rfl, h1.2.2, h2⟩

/-- Witness for C2: after a full signalled wait, goroutine 0 is at
`done` and holds the external lock. -/
theorem waitContext_returns_holding_lock_witness : wDone.lockL = some 0 :=
  waitContext_returns_holding_lock (⟨wDoneTrace, by rfl⟩ : Reachable [7] wDone) 0
    ⟨.done true none, false, 7⟩ true none (by rfl) rfl

/-- Witness for C3: after a cancelled wait the returned error is the
cancellation cause of the cancelled context, and the state is not
panicked. -/
theorem waitContext_error_iff_cancelled_witness :
    wCancelDone.cond.panicked = false ∧
    ((some 7 : Option Nat) = none ↔ false = true) ∧
    (some 7 : Option Nat) = some 7 ∧
    (⟨.done false (some 7), true, 7⟩ : Thread).cancelled = true := by
  have hth := waitContext_error_iff_cancelled
    (⟨wCancelTrace, by rfl⟩ : Reachable [7] wCancelDone)
  have h2 := hth.2 0 ⟨.done false (some 7), true, 7⟩ false (some 7) (by rfl) rfl
  exact ⟨hth.1, h2.1, (h2.2 rfl).1, (h2.2 rfl).2⟩

/-- Witness for C4: Signal is the identity both when a token is already
pending and when there is no waiter at all. -/
theorem signal_at_most_one_token_witness :
    stepSignal wToken = some wToken ∧
    stepSignal (initSys [7]) = some (initSys [7]) := by
  constructor
  · exact (signal_at_most_one_token (⟨wTokenTrace, by rfl⟩ : Reachable [7] wToken)).2.1 0
      ⟨false, 1⟩ (by rfl) (by rfl) rfl
  · exact (signal_at_most_one_token (⟨[], rfl⟩ : Reachable [7] (initSys [7]))).1 rfl

/-- Witness for C5: Broadcast is the identity on the waiterless initial
state, and on a state with one waiter it closes channel 0 and installs
the fresh channel 1. -/
theorem broadcast_swaps_or_noop_witness :
    stepBroadcast (initSys [7]) = some (initSys [7]) ∧
    (∃ (s' : Sys) (cs : ChanSt), stepBroadcast wWaiting = some s' ∧
      wWaiting.cond.chans[0]? = some cs ∧
      s'.cond.chans[0]? = some { cs with closed := true } ∧
      s'.cond.ch = some wWaiting.cond.chans.length ∧
      0 ≠ wWaiting.cond.chans.length ∧
      s'.cond.chans[wWaiting.cond.chans.length]? = some freshChan ∧
      s'.cond.waiters = wWaiting.cond.waiters ∧
      s'.cond.panicked = false) := by
  constructor
  · exact (broadcast_swaps_or_noop (⟨[], rfl⟩ : Reachable [7] (initSys [7]))).1 rfl
  · exact (broadcast_swaps_or_noop
      (⟨wTrace, by rfl⟩ : Reachable [7] wWaiting)).2 0 (by decide) (by rfl)

/-- Witness for C6: a waiter blocked on the quiet (open, empty) channel
cannot take its wake branch, and the deregistration of the last waiter
(who was cancelled while a Signal token was pending) leaves the current
channel drained. -/
theorem last_waiter_drains_token_witness :
    stepResolveWake 0 wWaiting = none ∧ (⟨false, 0⟩ : ChanSt).tokens = 0 := by
  constructor
  · exact (last_waiter_drains_token (⟨wTrace, by rfl⟩ : Reachable [7] wWaiting)).2.2.2 0
      ⟨.waiting 0, false, 7⟩ 0 ⟨false, 0⟩ (by rfl) rfl (by rfl) rfl rfl
  · exact (last_waiter_drains_token
      (⟨wDeregTrace, by rfl⟩ : Reachable [7] wDereg)).1 0 wDereg2
      (by rfl) (by rfl) 0 ⟨false, 0⟩ (by rfl) (by rfl)

/-- Witness for C7: with one goroutine waiting, `waiters` equals the
count of registered goroutines (namely 1) and is nonnegative. -/
theorem waiters_nonneg_counts_registered_witness :
    wWaiting.cond.waiters = (countRegistered wWaiting : Int) ∧ 0 ≤ wWaiting.cond.waiters :=
  waiters_nonneg_counts_registered (⟨wTrace, by rfl⟩ : Reachable [7] wWaiting)

/-- Witness for C8: at addresses 1 (original) and 2 (copy), the first
check stores the address and any operation on the copy panics. -/
theorem copied_cond_panics_witness :
    checkedOp 1 0 id zeroCondSt = some (1, zeroCondSt) ∧
    checkedOp 2 1 id zeroCondSt = none := by
  have hth := copied_cond_panics (by decide : (1 : Nat) ≠ 0) (by decide : (2 : Nat) ≠ 1)
  exact ⟨hth.1 id zeroCondSt, hth.2 id zeroCondSt⟩

/-- Witness for C9: the zero-value internal state is the `NewCond`
state, the first checker pass at address 5 succeeds, and a full wait
round trip from the zero value reaches no panic. -/
theorem zero_value_cond_safe_witness :
    (initSys [7]).cond = newCondSt ∧ copyCheck 5 0 = some 5 ∧
    wDone.cond.panicked = false := by
  have hth := zero_value_cond_safe [7]
  exact ⟨hth.1, hth.2.1 5 (by decide), hth.2.2 wDone ⟨wDoneTrace, by rfl⟩⟩

/-- Witness for C10: with one waiter the channel is non-nil, and both
Broadcast and Signal from that state leave the state unpanicked. -/
theorem waiters_pos_channel_nonnil_witness :
    wWaiting.cond.ch ≠ none ∧ wWaitB.cond.panicked = false ∧
    wWaitS.cond.panicked = false := by
  have hth := waiters_pos_channel_nonnil (⟨wTrace, by rfl⟩ : Reachable [7] wWaiting)
  exact ⟨hth.1 (by decide), hth.2.1 wWaitB (by rfl), hth.2.2 wWaitS (by rfl)⟩

end ContextCond
